import Mathlib

/-!
Verification of the sylvia phonetic dictionary (src/sylvia/sylvia.py).

The Python source is shallowly embedded as executable Lean definitions:
  * phoneme symbols and words are `String`, encoded pronunciations are
    `List Char` (Python 2 byte strings of code units chr(128+i));
  * fallible Python operations (list.index / ValueError, out-of-range
    chr lookups, re.compile failures) are modelled with `Option`;
  * Python list indexing in `decodePhonemeByte` keeps Python's negative
    index semantics (`xs[-k]` reads from the end of the list);
  * the regular expressions the program builds over encoded
    pronunciations are given semantics by a small regex engine
    (Brzozowski derivatives) together with a recursive-descent
    translation of the pattern text, covering the constructs the
    program itself generates: literal code units, `.`, `*`, `|`,
    `(?:...)` groups and the final `$` anchor appended by regexSearch.
-/

namespace Sylvia

/-- Sequentially apply a fallible function to every list element,
aborting at the first failure (the Python loop + exception pattern). -/
def mapOpt (f : α → Option β) : List α → Option (List β)
  | [] => some []
  | x :: xs =>
    match f x with
    | none => none
    | some y =>
      match mapOpt f xs with
      | none => none
      | some ys => some (y :: ys)

/-- PHONEME_TABLE from sylvia.py. -/
def PHONEME_TABLE : List String :=
  [ "AA", "AE", "AH", "AO", "AW", "AY", "B", "CH", "D", "DH", "EH", "ER", "EY", "F", "G",
    "HH", "IH", "IY", "JH", "K", "L", "M", "N", "NG", "OW", "OY", "P", "R", "S", "SH", "T",
    "TH", "UH", "UW", "V", "W", "Y", "Z", "ZH" ]

/-- VOWELS from sylvia.py. -/
def VOWELS : List String :=
  [ "AA", "AE", "AH", "AO", "AW", "AY", "EH", "ER", "EY", "IH", "IY", "OW", "OY", "UH", "UW" ]

/-- isVowelSound: membership in VOWELS. -/
def isVowelSound (phonemeString : String) : Bool :=
  VOWELS.contains phonemeString

/-- sanitizePhonemeString: strip digit characters, then uppercase
(Python `s.translate(None, string.digits).upper()`; ASCII case map). -/
def sanitizePhonemeString (phonemeString : String) : String :=
  String.mk ((phonemeString.data.filter (fun c => !c.isDigit)).map Char.toUpper)

/-- encodePhonemeString: `chr(128 + PHONEME_TABLE.index(sanitized))`.
Python raises ValueError when the sanitized symbol is absent; that is
the `none` case. -/
def encodePhonemeString (phonemeString : String) : Option Char :=
  (PHONEME_TABLE.indexOf? (sanitizePhonemeString phonemeString)).map
    (fun i => Char.ofNat (128 + i))

/-- The effective index of Python list subscription: a negative index
counts from the end of the list (`xs[-k]` is `xs[len xs - k]`). -/
def pyWrapIndex (i len : Int) : Int :=
  if i < 0 then i + len else i

/-- decodePhonemeByte: `sanitizePhonemeString(PHONEME_TABLE[ord(b) - 128])`.
Python list indexing accepts negative indices (see `pyWrapIndex`) and
raises IndexError outside `-len ≤ i < len`; the IndexError case is
`none`. -/
def decodePhonemeByte (phonemeByte : Char) : Option String :=
  let j : Int := pyWrapIndex ((phonemeByte.toNat : Int) - 128) (PHONEME_TABLE.length : Int)
  if h : 0 ≤ j ∧ j < (PHONEME_TABLE.length : Int) then
    some (sanitizePhonemeString (PHONEME_TABLE.get ⟨j.toNat, by omega⟩))
  else
    none

/-- encodePronunciation: encode every token, concatenating the
one-character encodings. -/
def encodePronunciation (pronunciationTokens : List String) : Option (List Char) :=
  mapOpt encodePhonemeString pronunciationTokens

/-- decodePronunciation: decode every code unit of the buffer. -/
def decodePronunciation (pronunciationBuffer : List Char) : Option (List String) :=
  mapOpt decodePhonemeByte pronunciationBuffer

/-- Python `str.capitalize`: first character uppercased, the rest
lowercased (ASCII case map, as in Python 2's default locale). -/
def pyCapitalize : List Char → List Char
  | [] => []
  | c :: rest => Char.toUpper c :: rest.map Char.toLower

/-- sanitizeWord: `DUPLICATE_STRIPPING_REGEX = (.*)(?:\(\d\))+$` applied
with `re.match`, keeping group 1 when the regex matches, then
`.capitalize()`.  The leading `.*` is greedy and `.` does not match a
newline, so a successful match strips exactly the last trailing
`(digit)` group (the `+` never consumes more than one group because
`.*` backtracks as little as possible), `$` also matches just before a
final newline, and no match happens when the remaining prefix contains
a newline. -/
def sanitizeWord (word : String) : String :=
  let cs := word.data
  let stripped :=
    match cs.reverse with
    | '\n' :: ')' :: d :: '(' :: rest =>
      if d.isDigit ∧ '\n' ∉ rest then rest.reverse else cs
    | ')' :: d :: '(' :: rest =>
      if d.isDigit ∧ '\n' ∉ rest then rest.reverse else cs
    | _ => cs
  String.mk (pyCapitalize stripped)

/-! ## Dictionary scanning (text format) -/

/-- Helper for `splitWs`: the accumulator holds the current token's
characters in reverse. -/
def splitWsAux : List Char → List Char → List String
  | [], acc => if acc = [] then [] else [String.mk acc.reverse]
  | c :: rest, acc =>
    if c.isWhitespace then
      if acc = [] then splitWsAux rest []
      else String.mk acc.reverse :: splitWsAux rest []
    else splitWsAux rest (c :: acc)

/-- `re.split(r"\s+", line)` followed by dropping empty pieces: the
maximal whitespace-free tokens of the line, in order. -/
def splitWs (line : String) : List String :=
  splitWsAux line.data []

/-- iter__text: scan text-format lines into (word, encoded
pronunciation) callback arguments.  Lines starting with ";;;" are
skipped.  A line whose whitespace-split token list is empty makes
Python fail with IndexError on `parts[0]` (`none` here); an unknown
phoneme token fails encoding (`none`). -/
def iter__text : List String → Option (List (String × List Char))
  | [] => some []
  | line :: rest =>
    if line.data.take 3 = [';', ';', ';'] then iter__text rest
    else
      match splitWs line with
      | [] => none
      | w :: ps =>
        match encodePronunciation ps with
        | none => none
        | some pron =>
          match iter__text rest with
          | none => none
          | some tail => some ((sanitizeWord w, pron) :: tail)

/-! ## Regex engine

The program matches compiled patterns against encoded pronunciations
with `re.match(pattern + "$", buffer)`.  We model the pattern fragment
the program generates: literal characters, `.` (any character except
newline), postfix `*`, alternation `|`, non-capturing groups `(?:...)`
and the trailing `$` appended by regexSearch (handled at the matching
step: `$` matches at the end of the subject or just before a final
newline). -/

/-- Regular expression abstract syntax. -/
inductive RE where
  | fail
  | eps
  | char (c : Char)
  | any
  | alt (a b : RE)
  | cat (a b : RE)
  | star (a : RE)
deriving DecidableEq

/-- Does the expression match the empty string? -/
def nullable : RE → Bool
  | .fail => false
  | .eps => true
  | .char _ => false
  | .any => false
  | .alt a b => nullable a || nullable b
  | .cat a b => nullable a && nullable b
  | .star _ => true

/-- Brzozowski derivative with respect to one character. -/
def derive : RE → Char → RE
  | .fail, _ => .fail
  | .eps, _ => .fail
  | .char d, c => if c = d then .eps else .fail
  | .any, c => if c = '\n' then .fail else .eps
  | .alt a b, c => .alt (derive a c) (derive b c)
  | .cat a b, c =>
    if nullable a then .alt (.cat (derive a c) b) (derive b c)
    else .cat (derive a c) b
  | .star a, c => .cat (derive a c) (.star a)

/-- Executable whole-string matcher. -/
def reMatches (r : RE) : List Char → Bool
  | [] => nullable r
  | c :: s => reMatches (derive r c) s

/-- Declarative matching semantics. -/
inductive Matches : RE → List Char → Prop where
  | eps : Matches .eps []
  | char (c : Char) : Matches (.char c) [c]
  | any (c : Char) : c ≠ '\n' → Matches .any [c]
  | altL {a b : RE} {s : List Char} : Matches a s → Matches (.alt a b) s
  | altR {a b : RE} {s : List Char} : Matches b s → Matches (.alt a b) s
  | cat {a b : RE} {s1 s2 : List Char} :
      Matches a s1 → Matches b s2 → Matches (.cat a b) (s1 ++ s2)
  | starNil (a : RE) : Matches (.star a) []
  | starCons {a : RE} {s1 s2 : List Char} :
      Matches a s1 → Matches (.star a) s2 → Matches (.star a) (s1 ++ s2)

/-- `re.match(p + "$", s)`: the pattern must consume the whole subject,
or all of it but one final newline. -/
def matchAnchored (r : RE) (s : List Char) : Bool :=
  reMatches r s ||
    match s.getLast? with
    | some c => (c == '\n') && reMatches r s.dropLast
    | none => false

/-- Characters the pattern parser refuses to treat as literals. -/
def isMeta (c : Char) : Bool :=
  c = '.' || c = '*' || c = '(' || c = ')' || c = '|' || c = '$' ||
  c = '+' || c = '?' || c = '[' || c = ']' || c = '\x7b' || c = '\x7d' ||
  c = '^' || c = '\\'

/-- Recursive-descent level: alternation, concatenation, starred
factor, atom. -/
inductive PLv where
  | alt
  | cat
  | factor
  | atom

/-- Fuel-indexed recursive-descent pattern reader returning the parsed
expression and the unconsumed rest. -/
def parseLv : Nat → PLv → List Char → Option (RE × List Char)
  | 0, _, _ => none
  | f + 1, .alt, cs =>
    match parseLv f .cat cs with
    | none => none
    | some (r, rest) =>
      match rest with
      | [] => some (r, [])
      | c2 :: rest2 =>
        if c2 = '|' then
          match parseLv f .alt rest2 with
          | none => none
          | some (r2, rest3) => some (.alt r r2, rest3)
        else some (r, c2 :: rest2)
  | f + 1, .cat, cs =>
    match parseLv f .factor cs with
    | none => none
    | some (r, rest) =>
      match rest with
      | [] => some (r, [])
      | c2 :: rest2 =>
        if c2 = ')' then some (r, c2 :: rest2)
        else if c2 = '|' then some (r, c2 :: rest2)
        else
          match parseLv f .cat (c2 :: rest2) with
          | none => none
          | some (r2, rest3) => some (.cat r r2, rest3)
  | f + 1, .factor, cs =>
    match parseLv f .atom cs with
    | none => none
    | some (r, rest) =>
      match rest with
      | [] => some (r, [])
      | c2 :: rest2 =>
        if c2 = '*' then some (.star r, rest2) else some (r, c2 :: rest2)
  | f + 1, .atom, cs =>
    match cs with
    | [] => none
    | c :: rest =>
      if c = '.' then some (.any, rest)
      else if c = '(' then
        match rest with
        | '?' :: ':' :: rest2 =>
          match parseLv f .alt rest2 with
          | none => none
          | some (r, rest3) =>
            match rest3 with
            | ')' :: rest4 => some (r, rest4)
            | _ => none
        | _ => none
      else if isMeta c then none
      else some (.char c, rest)

/-- Compile a whole pattern text (`re.compile`); `none` when the text
is not in the supported fragment or not fully consumed. -/
def compileRegex (cs : List Char) : Option RE :=
  match parseLv (4 * cs.length + 8) .alt cs with
  | some (r, []) => some r
  | _ => none

/-! ## Pattern preprocessing -/

/-- `[a-zA-Z]` test of the tokenizing split. -/
def isAlphaAZ (c : Char) : Bool :=
  ('a' ≤ c && c ≤ 'z') || ('A' ≤ c && c ≤ 'Z')

/-- `re.split("(%|#|@|(?:[^a-zA-Z#@%]+))", text)` with the separators
kept: alternating letter runs (possibly empty) and separators, where a
separator is a single `%`, `#` or `@` or a maximal run of characters
that are neither letters nor wildcard markers.  The accumulator holds
the current token reversed; the flag tells whether it is a separator
run. -/
def pSplitGo : List Char → List Char → Bool → List (List Char)
  | [], acc, false => [acc.reverse]
  | [], acc, true => [acc.reverse, []]
  | c :: rest, acc, false =>
    if c = '%' || c = '#' || c = '@' then
      acc.reverse :: [c] :: pSplitGo rest [] false
    else if isAlphaAZ c then
      pSplitGo rest (c :: acc) false
    else
      acc.reverse :: pSplitGo rest [c] true
  | c :: rest, acc, true =>
    if c = '%' || c = '#' || c = '@' then
      acc.reverse :: [] :: [c] :: pSplitGo rest [] false
    else if isAlphaAZ c then
      acc.reverse :: pSplitGo rest [c] false
    else
      pSplitGo rest (c :: acc) true

/-- The token list of a pattern text. -/
def pSplit (cs : List Char) : List (List Char) :=
  pSplitGo cs [] false

/-- `"|".join` of one-character strings. -/
def joinBar : List Char → List Char
  | [] => []
  | [c] => [c]
  | c :: d :: rest => c :: '|' :: joinBar (d :: rest)

/-- ANY_VOWEL_SOUND_REGEX_TEXT: alternation of all encoded vowels. -/
def ANY_VOWEL_SOUND_REGEX_TEXT : List Char :=
  '(' :: '?' :: ':' :: (joinBar (VOWELS.filterMap encodePhonemeString) ++ [')'])

/-- ANY_CONSONANT_SOUND_REGEX_TEXT: alternation of all encoded
non-vowel phonemes. -/
def ANY_CONSONANT_SOUND_REGEX_TEXT : List Char :=
  '(' :: '?' :: ':' ::
    (joinBar ((PHONEME_TABLE.filter (fun x => !(VOWELS.contains x))).filterMap
        encodePhonemeString) ++ [')'])

/-- ANY_SYLLABLE_REGEX_TEXT: consonants, one vowel, consonants. -/
def ANY_SYLLABLE_REGEX_TEXT : List Char :=
  '(' :: '?' :: ':' ::
    (ANY_CONSONANT_SOUND_REGEX_TEXT ++ ['*'] ++ ANY_VOWEL_SOUND_REGEX_TEXT ++
      ANY_CONSONANT_SOUND_REGEX_TEXT ++ ['*', ')'])

/-- One token of preprocessPhoneticRegex: wildcard substitution, else
phoneme encoding when the sanitized token is in the table, else
passthrough with spaces removed. -/
def processToken (t : List Char) : List Char :=
  if t = ['#'] then ANY_CONSONANT_SOUND_REGEX_TEXT
  else if t = ['@'] then ANY_VOWEL_SOUND_REGEX_TEXT
  else if t = ['%'] then ANY_SYLLABLE_REGEX_TEXT
  else
    match encodePhonemeString (String.mk t) with
    | some c => [c]
    | none => t.filter (fun c => c ≠ ' ')

/-- preprocessPhoneticRegex: split, substitute each token, rejoin. -/
def preprocessPhoneticRegex (cs : List Char) : List Char :=
  ((pSplit cs).map processToken).flatten

/-! ## Query algorithms -/

/-- Lexicographic byte-order comparison of character lists (the order
Python's `sorted` uses on byte strings). -/
def lexLe : List Char → List Char → Bool
  | [], _ => true
  | _ :: _, [] => false
  | c :: cs, d :: ds =>
    if c.toNat < d.toNat then true
    else if d.toNat < c.toNat then false
    else lexLe cs ds

/-- Python string comparison. -/
def strLeB (a b : String) : Bool :=
  lexLe a.data b.data

/-- Python `sorted` on a list of words. -/
def pySorted (l : List String) : List String :=
  List.insertionSort (fun a b => strLeB a b = true) l

/-- `sorted(list(set(l)))`: the ascending list of distinct elements. -/
def sortedSet (l : List String) : List String :=
  pySorted l.dedup

/-- regexSearch: preprocess the pattern, compile it with the `$` anchor
appended, keep every entry whose encoded pronunciation matches, then
sort the deduplicated word list.  `none` models a `re.compile`
failure (pattern outside the supported fragment). -/
def regexSearch (es : List (String × List Char)) (pat : List Char) : Option (List String) :=
  match compileRegex (preprocessPhoneticRegex pat) with
  | none => none
  | some r =>
    some (sortedSet ((es.filter (fun e => matchAnchored r e.2)).map (fun e => e.1)))

/-- findPronunciations: decode the encoded pronunciation of every entry
whose sanitized word equals the sanitized query word. -/
def findPronunciations (es : List (String × List Char)) (word : String) :
    Option (List (List String)) :=
  mapOpt decodePronunciation
    ((es.filter (fun e => sanitizeWord e.1 == sanitizeWord word)).map (fun e => e.2))

/-- `" ".join` of the phoneme symbols. -/
def joinSpace : List String → List Char
  | [] => []
  | [m] => m.data
  | m :: n :: rest => m.data ++ ' ' :: joinSpace (n :: rest)

/-- getRhymes: for each pronunciation of the query word take the suffix
from the first vowel on (Python `[isVowelSound(x) for x in p].index(True)`
raises ValueError — `none` — when there is no vowel), search with
pattern `".* " + " ".join(suffix)`, collect all results, and return
the sorted set minus the sanitized query word. -/
def getRhymes (es : List (String × List Char)) (word : String) : Option (List String) :=
  match findPronunciations es word with
  | none => none
  | some ps =>
    match mapOpt (fun p =>
        match List.findIdx? (fun x => isVowelSound x) p with
        | none => none
        | some i => regexSearch es ('.' :: '*' :: ' ' :: joinSpace (p.drop i))) ps with
    | none => none
    | some results =>
      some (pySorted
        ((results.flatten.dedup).filter (fun x => x ≠ sanitizeWord word)))

/-- `"#*".join` of the phoneme symbols. -/
def joinHashStar : List String → List Char
  | [] => []
  | [m] => m.data
  | m :: n :: rest => m.data ++ '#' :: '*' :: joinHashStar (n :: rest)

/-- getVowelMatches: for each pronunciation of the query word keep its
vowels, search with pattern `".*" + "#*".join(vowels) + ".*"`, collect,
and return the sorted set minus the sanitized query word. -/
def getVowelMatches (es : List (String × List Char)) (word : String) : Option (List String) :=
  match findPronunciations es word with
  | none => none
  | some ps =>
    match mapOpt (fun p =>
        regexSearch es
          ('.' :: '*' :: (joinHashStar (p.filter (fun x => isVowelSound x)) ++ ['.', '*']))) ps with
    | none => none
    | some results =>
      some (pySorted
        ((results.flatten.dedup).filter (fun x => x ≠ sanitizeWord word)))

/-- Wellformed entry lists: every code unit of every stored
pronunciation is in the reserved range (as produced by the codec). -/
def wfEntries (es : List (String × List Char)) : Prop :=
  ∀ e ∈ es, ∀ c ∈ e.2, 128 ≤ c.toNat ∧ c.toNat < 128 + PHONEME_TABLE.length

/-- The three-entry example dictionary of the specification, in text
source format. -/
def exampleLines : List String :=
  ["CAT  K AE1 T", "BAT  B AE1 T", "HAT  HH AE1 T"]

/-- The scanned entries of the example dictionary (code units 147, 134,
143 encode K, B, HH; 129 encodes AE; 158 encodes T). -/
def exampleEntries : List (String × List Char) :=
  [("Cat", [Char.ofNat 147, Char.ofNat 129, Char.ofNat 158]),
   ("Bat", [Char.ofNat 134, Char.ofNat 129, Char.ofNat 158]),
   ("Hat", [Char.ofNat 143, Char.ofNat 129, Char.ofNat 158])]

/-- The right-nested concatenation of literal characters that the
pattern reader produces for a run of literal code units. -/
def litCat : List Char → RE
  | [] => .eps
  | [c] => .char c
  | c :: d :: rest => .cat (.char c) (litCat (d :: rest))

/-- The token list the wildcard split produces after the first symbol
of a space-joined symbol sequence: a one-space separator before each
further symbol. -/
def sepToks : List String → List (List Char)
  | [] => []
  | m :: rest => [' '] :: m.data :: sepToks rest

/-! ## Theorems -/

/-- Helper: every table symbol encodes to a code unit in [128, 128+39),
and its singleton pronunciation encodes to exactly that one unit. -/
theorem encode_total_range :
    ∀ s ∈ PHONEME_TABLE, ∃ c, encodePhonemeString s = some c ∧
      encodePronunciation [s] = some [c] ∧
      128 ≤ c.toNat ∧ c.toNat < 128 + PHONEME_TABLE.length := by
  decide

/-- C2: Codec round-trip.  For every phoneme symbol S in the table,
decodePhonemeByte (encodePhonemeString S) = S; and every code unit
actually produced by encoding a table symbol is reproduced by encoding
its decoding. -/
theorem claim_C2_codec_roundtrip :
    (∀ s ∈ PHONEME_TABLE, (encodePhonemeString s).bind decodePhonemeByte = some s) ∧
    (∀ s ∈ PHONEME_TABLE,
      (encodePhonemeString s).bind (fun c => (decodePhonemeByte c).bind encodePhonemeString)
        = encodePhonemeString s) := by
  decide

/-- Witness for C2 at the concrete symbol "AA". -/
theorem claim_C2_codec_roundtrip_witness :
    (encodePhonemeString "AA").bind decodePhonemeByte = some "AA" :=
  claim_C2_codec_roundtrip.1 "AA" (by decide)

/-- C3: every table symbol is encoded to exactly one code unit, the
mapping is injective on the table, and every produced code unit has
value at least 128 (hence distinct from every ASCII character, in
particular from pattern metacharacters and from the characters of
natural dictionary words). -/
theorem claim_C3_encoding_invariants :
    (∀ s ∈ PHONEME_TABLE, ∃ c, encodePhonemeString s = some c ∧
        encodePronunciation [s] = some [c] ∧
        128 ≤ c.toNat ∧ c.toNat < 128 + PHONEME_TABLE.length ∧
        ∀ d : Char, d.toNat < 128 → c ≠ d) ∧
    (∀ s ∈ PHONEME_TABLE, ∀ t ∈ PHONEME_TABLE,
        encodePhonemeString s = encodePhonemeString t → s = t) := by
  constructor
  · intro s hs
    obtain ⟨c, hc, hone, hlo, hhi⟩ := encode_total_range s hs
    refine ⟨c, hc, hone, hlo, hhi, ?_⟩
    intro d hd hcd
    subst hcd
    omega
  · decide

/-- Witness for C3 at the concrete symbol "AE". -/
theorem claim_C3_encoding_invariants_witness :
    ∃ c, encodePhonemeString "AE" = some c ∧
      encodePronunciation ["AE"] = some [c] ∧
      128 ≤ c.toNat ∧ c.toNat < 128 + PHONEME_TABLE.length ∧
      ∀ d : Char, d.toNat < 128 → c ≠ d :=
  claim_C3_encoding_invariants.1 "AE" (by decide)

/-- C5 fails on the code: for the out-of-range unit 127 (< 128) the
decoder silently returns phoneme "ZH" through Python negative list
indexing instead of failing; it fails only below 128-39 or at/above
128+39. -/
theorem claim_C5_decode_evaluation :
    decodePhonemeByte (Char.ofNat 127) = some "ZH" ∧
    decodePhonemeByte (Char.ofNat 89) = some "AA" ∧
    decodePhonemeByte (Char.ofNat 88) = none ∧
    decodePhonemeByte (Char.ofNat 167) = none := by
  decide

/-- C6 fails on the code: scanning a text line holding a word and zero
phoneme tokens silently yields an entry with an empty pronunciation
instead of failing. -/
theorem claim_C6_zero_phoneme_line_accepted :
    iter__text ["HMM"] = some [("Hmm", [])] := by
  decide

/-- If one element fails, the whole sequential traversal fails. -/
theorem mapOpt_eq_none_of_mem {f : α → Option β} {l : List α} {x : α}
    (hx : x ∈ l) (hfx : f x = none) : mapOpt f l = none := by
  induction l with
  | nil => cases hx
  | cons y ys ih =>
    rcases List.mem_cons.mp hx with rfl | hmem
    · simp [mapOpt, hfx]
    · unfold mapOpt
      cases hfy : f y with
      | none => rfl
      | some v => rw [ih hmem]

/-- Successful traversals relate input and output pointwise. -/
theorem mapOpt_eq_some_iff {f : α → Option β} {l : List α} {ys : List β} :
    mapOpt f l = some ys ↔ List.Forall₂ (fun x y => f x = some y) l ys := by
  induction l generalizing ys with
  | nil =>
    cases ys <;> simp [mapOpt]
  | cons x xs ih =>
    unfold mapOpt
    cases hfx : f x with
    | none =>
      constructor
      · intro hc; cases hc
      · intro hc
        cases hc with
        | cons h1 _ => rw [hfx] at h1; cases h1
    | some v =>
      cases hrest : mapOpt f xs with
      | none =>
        constructor
        · intro hc; cases hc
        · intro hc
          cases hc with
          | cons h1 h2 =>
            have := ih.mpr h2
            rw [hrest] at this; cases this
      | some vs =>
        constructor
        · intro hc
          cases hc
          exact List.Forall₂.cons hfx (ih.mp hrest)
        · intro hc
          cases hc with
          | cons h1 h2 =>
            rw [hfx] at h1
            cases h1
            have := ih.mpr h2
            rw [hrest] at this
            cases this
            rfl

/-- C9 fails on the code: sanitizeWord is not idempotent.  The greedy
`.*` in the duplicate-stripping regex removes only the last trailing
(digit) group, so a word with two stacked markers normalizes
differently when normalized twice. -/
theorem claim_C9_sanitizeWord_not_idempotent :
    sanitizeWord "AB(1)(2)" = "Ab(1)" ∧
    sanitizeWord (sanitizeWord "AB(1)(2)") = "Ab" ∧
    sanitizeWord (sanitizeWord "AB(1)(2)") ≠ sanitizeWord "AB(1)(2)" := by
  decide

/-- Char order agrees with codepoint order. -/
theorem char_lt_iff_toNat {c d : Char} : c < d ↔ c.toNat < d.toNat := by
  rw [Char.lt_def, UInt32.lt_def, BitVec.lt_def]
  exact Iff.rfl

/-- Characters with equal codepoints are equal. -/
theorem char_toNat_inj {c d : Char} (h : c.toNat = d.toNat) : c = d :=
  Char.ext (UInt32.toNat.inj h)

/-- lexLe is total. -/
theorem lexLe_total : ∀ xs ys : List Char, lexLe xs ys = true ∨ lexLe ys xs = true := by
  intro xs
  induction xs with
  | nil => intro ys; left; rfl
  | cons x xs ih =>
    intro ys
    cases ys with
    | nil => right; rfl
    | cons y ys =>
      simp only [lexLe]
      rcases Nat.lt_trichotomy x.toNat y.toNat with h | h | h
      · left; simp [h]
      · have : ¬ x.toNat < y.toNat := by omega
        have h2 : ¬ y.toNat < x.toNat := by omega
        rcases ih ys with h3 | h3
        · left; simp [this, h2, h3]
        · right; simp [this, h2, h3]
      · right; simp [h]

/-- lexLe is transitive. -/
theorem lexLe_trans : ∀ xs ys zs : List Char,
    lexLe xs ys = true → lexLe ys zs = true → lexLe xs zs = true := by
  intro xs
  induction xs with
  | nil => intro ys zs _ _; rfl
  | cons x xs ih =>
    intro ys zs h1 h2
    cases ys with
    | nil => simp [lexLe] at h1
    | cons y ys =>
      cases zs with
      | nil => simp [lexLe] at h2
      | cons z zs =>
        simp only [lexLe] at h1 h2 ⊢
        rcases Nat.lt_trichotomy x.toNat y.toNat with hxy | hxy | hxy
        · rcases Nat.lt_trichotomy y.toNat z.toNat with hyz | hyz | hyz
          · have hxz : x.toNat < z.toNat := by omega
            simp [hxz]
          · have hxz : x.toNat < z.toNat := by omega
            simp [hxz]
          · have h2f : ¬ y.toNat < z.toNat := by omega
            rw [if_neg h2f, if_pos hyz] at h2
            exact Bool.noConfusion h2
        · rcases Nat.lt_trichotomy y.toNat z.toNat with hyz | hyz | hyz
          · have hxz : x.toNat < z.toNat := by omega
            simp [hxz]
          · have hx1 : ¬ x.toNat < y.toNat := by omega
            have hx2 : ¬ y.toNat < x.toNat := by omega
            rw [if_neg hx1, if_neg hx2] at h1
            have hy1 : ¬ y.toNat < z.toNat := by omega
            have hy2 : ¬ z.toNat < y.toNat := by omega
            rw [if_neg hy1, if_neg hy2] at h2
            have hz1 : ¬ x.toNat < z.toNat := by omega
            have hz2 : ¬ z.toNat < x.toNat := by omega
            rw [if_neg hz1, if_neg hz2]
            exact ih ys zs h1 h2
          · have h2f : ¬ y.toNat < z.toNat := by omega
            rw [if_neg h2f, if_pos hyz] at h2
            exact Bool.noConfusion h2
        · have h1f : ¬ x.toNat < y.toNat := by omega
          rw [if_neg h1f, if_pos hxy] at h1
          exact Bool.noConfusion h1

/-- lexLe coincides with the (negated) lexicographic strict order used
by the library order on strings. -/
theorem lexLe_iff_not_lt : ∀ xs ys : List Char, lexLe xs ys = true ↔ ¬ List.lt ys xs := by
  intro xs
  induction xs with
  | nil =>
    intro ys
    constructor
    · intro _ h
      cases h
    · intro _; rfl
  | cons x xs ih =>
    intro ys
    cases ys with
    | nil =>
      simp only [lexLe]
      constructor
      · intro h; cases h
      · intro h
        exact absurd (List.lt.nil x xs) h
    | cons y ys =>
      simp only [lexLe]
      rcases Nat.lt_trichotomy x.toNat y.toNat with h | h | h
      · simp only [if_pos h, true_iff]
        intro hc
        cases hc with
        | head _ _ h2 => exact absurd (char_lt_iff_toNat.mp h2) (by omega)
        | tail h2 h3 _ => exact h3 (char_lt_iff_toNat.mpr h)
      · have hx : ¬ x.toNat < y.toNat := by omega
        have hy : ¬ y.toNat < x.toNat := by omega
        have hxy : x = y := char_toNat_inj h
        subst hxy
        simp only [if_neg hx, if_neg hy]
        rw [ih ys]
        constructor
        · intro hn hc
          cases hc with
          | head _ _ h2 => exact absurd (char_lt_iff_toNat.mp h2) hx
          | tail _ _ h4 => exact hn h4
        · intro hn hc
          exact hn (List.lt.tail (fun h2 => hx (char_lt_iff_toNat.mp h2))
            (fun h2 => hy (char_lt_iff_toNat.mp h2)) hc)
      · have hx : ¬ x.toNat < y.toNat := by omega
        rw [if_neg hx, if_pos h]
        constructor
        · intro hc
          exact Bool.noConfusion hc
        · intro hn
          exact absurd (List.lt.head _ _ (char_lt_iff_toNat.mpr h)) hn

/-- strLeB coincides with the library string order. -/
theorem strLeB_iff_le {a b : String} : strLeB a b = true ↔ a ≤ b := by
  have h1 := lexLe_iff_not_lt a.data b.data
  have h3 : List.lt b.data a.data ↔ List.Lex (fun x y => x < y) b.data a.data :=
    List.lt_iff_lex_lt b.data a.data
  have h2 : b < a ↔ List.Lex (fun x y => x < y) b.data a.data := String.lt_iff_toList_lt
  constructor
  · intro hx hba
    exact (h1.mp hx) (h3.mpr (h2.mp hba))
  · intro hx
    exact h1.mpr (fun hlt => hx (h2.mpr (h3.mp hlt)))

/-- pySorted permutes its input. -/
theorem pySorted_perm (l : List String) : List.Perm (pySorted l) l :=
  List.perm_insertionSort _ _

/-- pySorted output is sorted with respect to the string order. -/
theorem pySorted_sorted (l : List String) : (pySorted l).Sorted (· ≤ ·) := by
  haveI : IsTotal String (fun a b => strLeB a b = true) := ⟨fun a b => lexLe_total a.data b.data⟩
  haveI : IsTrans String (fun a b => strLeB a b = true) :=
    ⟨fun a b c => lexLe_trans a.data b.data c.data⟩
  have h := List.sorted_insertionSort (fun a b => strLeB a b = true) l
  exact h.imp (fun hab => strLeB_iff_le.mp hab)

/-- C7: every query result list is deduplicated and sorted ascending,
and the derived rhyme and vowel-pattern searches never return the
normalized query word itself. -/
theorem claim_C7_result_discipline :
    (∀ es pat l, regexSearch es pat = some l → l.Sorted (· ≤ ·) ∧ l.Nodup) ∧
    (∀ es w l, getRhymes es w = some l →
        l.Sorted (· ≤ ·) ∧ l.Nodup ∧ sanitizeWord w ∉ l) ∧
    (∀ es w l, getVowelMatches es w = some l →
        l.Sorted (· ≤ ·) ∧ l.Nodup ∧ sanitizeWord w ∉ l) := by
  have hsorted : ∀ l : List String, (pySorted l).Sorted (· ≤ ·) := pySorted_sorted
  have hnodup : ∀ l : List String, l.Nodup → (pySorted l).Nodup :=
    fun l h => (pySorted_perm l).symm.nodup h
  refine ⟨?_, ?_, ?_⟩
  · intro es pat l h
    unfold regexSearch at h
    split at h
    · cases h
    · cases h
      exact ⟨hsorted _, hnodup _ (List.nodup_dedup _)⟩
  · intro es w l h
    unfold getRhymes at h
    split at h
    · cases h
    · split at h
      · cases h
      · cases h
        refine ⟨hsorted _, hnodup _ ((List.nodup_dedup _).filter _), ?_⟩
        intro hmem
        have hmem2 := (pySorted_perm _).mem_iff.mp hmem
        have := List.of_mem_filter hmem2
        simp at this
  · intro es w l h
    unfold getVowelMatches at h
    split at h
    · cases h
    · split at h
      · cases h
      · cases h
        refine ⟨hsorted _, hnodup _ ((List.nodup_dedup _).filter _), ?_⟩
        intro hmem
        have hmem2 := (pySorted_perm _).mem_iff.mp hmem
        have := List.of_mem_filter hmem2
        simp at this

/-- Witness for C7: its three parts applied to the example dictionary. -/
theorem claim_C7_result_discipline_witness :
    (["Bat", "Cat", "Hat"].Sorted (· ≤ ·) ∧ ["Bat", "Cat", "Hat"].Nodup) ∧
    (["Bat", "Hat"].Sorted (· ≤ ·) ∧ ["Bat", "Hat"].Nodup ∧ "Cat" ∉ ["Bat", "Hat"]) :=
  ⟨claim_C7_result_discipline.1
      [("Cat", [Char.ofNat 147, Char.ofNat 129, Char.ofNat 158]),
       ("Bat", [Char.ofNat 134, Char.ofNat 129, Char.ofNat 158]),
       ("Hat", [Char.ofNat 143, Char.ofNat 129, Char.ofNat 158])]
      ('.' :: '*' :: ' ' :: "AE T".data) ["Bat", "Cat", "Hat"] (by decide),
   claim_C7_result_discipline.2.1
      [("Cat", [Char.ofNat 147, Char.ofNat 129, Char.ofNat 158]),
       ("Bat", [Char.ofNat 134, Char.ofNat 129, Char.ofNat 158]),
       ("Hat", [Char.ofNat 143, Char.ofNat 129, Char.ofNat 158])]
      "CAT" ["Bat", "Hat"] (by decide)⟩

/-- C4 as stated fails on the code: the words returned are
case-normalized by `str.capitalize`, so the result is
["Bat", "Hat"], not ["BAT", "HAT"]. -/
theorem claim_C4_counterexample :
    (iter__text exampleLines).bind (fun es => getRhymes es "CAT") ≠ some ["BAT", "HAT"] := by
  decide

/-- C4 amended: on the three-entry example dictionary, rhyme search for
"CAT" returns exactly ["Bat", "Hat"] — the capitalized normal forms —
sorted ascending and excluding the query word itself. -/
theorem claim_C4_amended :
    (iter__text exampleLines).bind (fun es => getRhymes es "CAT") = some ["Bat", "Hat"] := by
  decide

/-- C8: the translated and anchored single-token "@" pattern matches
the one-unit encoding of a table phoneme exactly when that phoneme is
a vowel. -/
theorem claim_C8_any_vowel_wildcard :
    ∀ p ∈ PHONEME_TABLE,
      (encodePhonemeString p).bind (fun c =>
        (compileRegex (preprocessPhoneticRegex ['@'])).map (fun r => matchAnchored r [c]))
        = some (isVowelSound p) := by
  decide

/-- Witness for C8 at the vowel "AA" and the consonant "B". -/
theorem claim_C8_any_vowel_wildcard_witness :
    (encodePhonemeString "AA").bind (fun c =>
        (compileRegex (preprocessPhoneticRegex ['@'])).map (fun r => matchAnchored r [c]))
      = some true ∧
    (encodePhonemeString "B").bind (fun c =>
        (compileRegex (preprocessPhoneticRegex ['@'])).map (fun r => matchAnchored r [c]))
      = some false :=
  ⟨claim_C8_any_vowel_wildcard "AA" (by decide), claim_C8_any_vowel_wildcard "B" (by decide)⟩

/-- C10: when some pronunciation of the query word has no vowel
phoneme, the unguarded first-vowel lookup fails (Python
`[...].index(True)` raises ValueError), so getRhymes fails instead of
returning a result set. -/
theorem claim_C10_vowelless_pronunciation_fails
    (es : List (String × List Char)) (w : String) (ps : List (List String)) (p : List String)
    (hfind : findPronunciations es w = some ps) (hp : p ∈ ps)
    (hnv : ∀ s ∈ p, isVowelSound s = false) :
    getRhymes es w = none := by
  have h1 : List.findIdx? (fun x => isVowelSound x) p = none :=
    List.findIdx?_eq_none_iff.mpr hnv
  have h2 : mapOpt (fun q =>
      match List.findIdx? (fun x => isVowelSound x) q with
      | none => none
      | some i => regexSearch es ('.' :: '*' :: ' ' :: joinSpace (q.drop i))) ps = none := by
    apply mapOpt_eq_none_of_mem hp
    rw [h1]
  simp only [getRhymes, hfind, h2]

/-- Witness for C10: a one-entry dictionary whose only word has the
vowelless pronunciation HH M. -/
theorem claim_C10_vowelless_pronunciation_fails_witness :
    getRhymes [("Hmm", [Char.ofNat 143, Char.ofNat 149])] "HMM" = none :=
  claim_C10_vowelless_pronunciation_fails
    [("Hmm", [Char.ofNat 143, Char.ofNat 149])] "HMM"
    [["HH", "M"]] ["HH", "M"] (by decide) (by decide) (by decide)

/-! ## Matcher correctness: the derivative matcher agrees with the
declarative semantics. -/

/-- `fail` matches nothing. -/
theorem not_matches_fail {s : List Char} : ¬ Matches .fail s := by
  intro h
  cases h

/-- Splitting view of concatenation matches. -/
theorem matches_cat_iff {a b : RE} {s : List Char} :
    Matches (.cat a b) s ↔ ∃ s1 s2, s = s1 ++ s2 ∧ Matches a s1 ∧ Matches b s2 := by
  constructor
  · intro h
    cases h with
    | cat h1 h2 => exact ⟨_, _, rfl, h1, h2⟩
  · intro ⟨s1, s2, hs, h1, h2⟩
    subst hs
    exact Matches.cat h1 h2

/-- nullable tests the empty-string match. -/
theorem nullable_iff {r : RE} : nullable r = true ↔ Matches r [] := by
  induction r with
  | fail =>
    simp only [nullable]
    constructor
    · intro h; exact Bool.noConfusion h
    · intro h; cases h
  | eps =>
    simp only [nullable, true_iff]
    exact Matches.eps
  | char c =>
    simp only [nullable]
    constructor
    · intro h; exact Bool.noConfusion h
    · intro h; cases h
  | any =>
    simp only [nullable]
    constructor
    · intro h; exact Bool.noConfusion h
    · intro h; cases h
  | alt a b iha ihb =>
    simp only [nullable, Bool.or_eq_true]
    constructor
    · intro h
      rcases h with h | h
      · exact Matches.altL (iha.mp h)
      · exact Matches.altR (ihb.mp h)
    · intro h
      cases h with
      | altL h => exact Or.inl (iha.mpr h)
      | altR h => exact Or.inr (ihb.mpr h)
  | cat a b iha ihb =>
    simp only [nullable, Bool.and_eq_true]
    constructor
    · intro h
      have := Matches.cat (iha.mp h.1) (ihb.mp h.2)
      simpa using this
    · intro h
      rcases matches_cat_iff.mp h with ⟨s1, s2, hs, h1, h2⟩
      have hnil : s1 = [] ∧ s2 = [] := List.append_eq_nil.mp hs.symm
      exact ⟨iha.mpr (hnil.1 ▸ h1), ihb.mpr (hnil.2 ▸ h2)⟩
  | star a iha =>
    simp only [nullable, true_iff]
    exact Matches.starNil a

/-- A nonempty star match splits off a nonempty first chunk. -/
theorem matches_star_cons_split {a : RE} {c : Char} {s : List Char}
    (h : Matches (.star a) (c :: s)) :
    ∃ s1 s2, s = s1 ++ s2 ∧ Matches a (c :: s1) ∧ Matches (.star a) s2 := by
  suffices hgen : ∀ r t, Matches r t → ∀ a0 c0 s0, r = RE.star a0 → t = c0 :: s0 →
      ∃ s1 s2, s0 = s1 ++ s2 ∧ Matches a0 (c0 :: s1) ∧ Matches (.star a0) s2 by
    exact hgen _ _ h a c s rfl rfl
  intro r t h
  induction h with
  | eps => intro a0 c0 s0 hr ht; cases hr
  | char _ => intro a0 c0 s0 hr ht; cases hr
  | any _ _ => intro a0 c0 s0 hr ht; cases hr
  | altL _ => intro a0 c0 s0 hr ht; cases hr
  | altR _ => intro a0 c0 s0 hr ht; cases hr
  | cat _ _ => intro a0 c0 s0 hr ht; cases hr
  | starNil _ => intro a0 c0 s0 hr ht; cases ht
  | @starCons ai s1 s2 h1 h2 ih1 ih2 =>
    intro a0 c0 s0 hr ht
    cases hr
    cases s1 with
    | nil =>
      simp only [List.nil_append] at ht
      exact ih2 _ c0 s0 rfl ht
    | cons d s1' =>
      rw [List.cons_append] at ht
      cases ht
      exact ⟨s1', s2, rfl, h1, h2⟩

/-- The derivative is sound and complete for one character. -/
theorem matches_derive_iff {r : RE} {c : Char} {s : List Char} :
    Matches (derive r c) s ↔ Matches r (c :: s) := by
  induction r generalizing s with
  | fail =>
    simp only [derive]
    constructor
    · intro h; cases h
    · intro h; cases h
  | eps =>
    simp only [derive]
    constructor
    · intro h; cases h
    · intro h; cases h
  | char d =>
    simp only [derive]
    by_cases hc : c = d
    · subst hc
      rw [if_pos rfl]
      constructor
      · intro h
        cases h
        exact Matches.char c
      · intro h
        cases h
        exact Matches.eps
    · rw [if_neg hc]
      constructor
      · intro h; cases h
      · intro h
        cases h
        exact absurd rfl hc
  | any =>
    simp only [derive]
    by_cases hc : c = '\n'
    · rw [if_pos hc]
      constructor
      · intro h; cases h
      · intro h
        cases h with
        | any _ hne => exact absurd hc hne
    · rw [if_neg hc]
      constructor
      · intro h
        cases h
        exact Matches.any c hc
      · intro h
        cases h
        exact Matches.eps
  | alt a b iha ihb =>
    simp only [derive]
    constructor
    · intro h
      cases h with
      | altL h => exact Matches.altL (iha.mp h)
      | altR h => exact Matches.altR (ihb.mp h)
    · intro h
      cases h with
      | altL h => exact Matches.altL (iha.mpr h)
      | altR h => exact Matches.altR (ihb.mpr h)
  | cat a b iha ihb =>
    simp only [derive]
    by_cases hn : nullable a
    · rw [if_pos hn]
      constructor
      · intro h
        cases h with
        | altL h =>
          rcases matches_cat_iff.mp h with ⟨s1, s2, hs, h1, h2⟩
          subst hs
          have := Matches.cat (iha.mp h1) h2
          simpa using this
        | altR h =>
          have h0 : Matches a [] := nullable_iff.mp hn
          have := Matches.cat h0 (ihb.mp h)
          simpa using this
      · intro h
        rcases matches_cat_iff.mp h with ⟨s1, s2, hs, h1, h2⟩
        cases s1 with
        | nil =>
          simp only [List.nil_append] at hs
          subst hs
          exact Matches.altR (ihb.mpr h2)
        | cons d s1' =>
          rw [List.cons_append] at hs
          cases hs
          exact Matches.altL (matches_cat_iff.mpr ⟨s1', s2, rfl, iha.mpr h1, h2⟩)
    · rw [if_neg hn]
      constructor
      · intro h
        rcases matches_cat_iff.mp h with ⟨s1, s2, hs, h1, h2⟩
        subst hs
        have := Matches.cat (iha.mp h1) h2
        simpa using this
      · intro h
        rcases matches_cat_iff.mp h with ⟨s1, s2, hs, h1, h2⟩
        cases s1 with
        | nil =>
          exact absurd (nullable_iff.mpr h1) hn
        | cons d s1' =>
          rw [List.cons_append] at hs
          cases hs
          exact matches_cat_iff.mpr ⟨s1', s2, rfl, iha.mpr h1, h2⟩
  | star a iha =>
    simp only [derive]
    constructor
    · intro h
      rcases matches_cat_iff.mp h with ⟨s1, s2, hs, h1, h2⟩
      subst hs
      have := Matches.starCons (iha.mp h1) h2
      simpa using this
    · intro h
      rcases matches_star_cons_split h with ⟨s1, s2, hs, h1, h2⟩
      subst hs
      exact matches_cat_iff.mpr ⟨s1, s2, rfl, iha.mpr h1, h2⟩

/-- The executable matcher agrees with the declarative semantics. -/
theorem reMatches_iff {r : RE} {s : List Char} :
    reMatches r s = true ↔ Matches r s := by
  induction s generalizing r with
  | nil => exact nullable_iff
  | cons c s ih =>
    simp only [reMatches]
    exact ih.trans matches_derive_iff

/-! ## Semantics of the patterns getRhymes generates -/

/-- Character matches are singletons. -/
theorem matches_char_iff {c : Char} {s : List Char} :
    Matches (.char c) s ↔ s = [c] := by
  constructor
  · intro h
    cases h
    rfl
  · intro h
    subst h
    exact Matches.char c

/-- `.*` matches exactly the newline-free strings. -/
theorem matches_star_any_iff {s : List Char} :
    Matches (.star .any) s ↔ '\n' ∉ s := by
  induction s with
  | nil =>
    simp only [List.not_mem_nil, not_false_iff, iff_true]
    exact Matches.starNil _
  | cons c s ih =>
    constructor
    · intro h
      rcases matches_star_cons_split h with ⟨s1, s2, hs, h1, h2⟩
      cases h1 with
      | any _ hne =>
        simp only [List.nil_append] at hs
        subst hs
        intro hmem
        rcases List.mem_cons.mp hmem with rfl | hmem2
        · exact hne rfl
        · exact (ih.mp h2) hmem2
    · intro h
      have hc : c ≠ '\n' := fun hc => h (hc ▸ List.mem_cons_self c s)
      have hs : '\n' ∉ s := fun hm => h (List.mem_cons_of_mem c hm)
      have := Matches.starCons (Matches.any c hc) (ih.mpr hs)
      simpa using this

/-- A literal run matches exactly itself. -/
theorem matches_litCat_iff {L s : List Char} :
    Matches (litCat L) s ↔ s = L := by
  induction L generalizing s with
  | nil =>
    simp only [litCat]
    constructor
    · intro h
      cases h
      rfl
    · intro h
      subst h
      exact Matches.eps
  | cons c L ih =>
    cases L with
    | nil => exact matches_char_iff
    | cons d rest =>
      simp only [litCat]
      rw [matches_cat_iff]
      constructor
      · intro ⟨s1, s2, hs, h1, h2⟩
        have e1 := matches_char_iff.mp h1
        have e2 := ih.mp h2
        subst e1
        subst e2
        exact hs
      · intro h
        subst h
        exact ⟨[c], d :: rest, rfl, Matches.char c, ih.mpr rfl⟩

/-- The full rhyme pattern body: any newline-free prefix followed by
the literal suffix. -/
theorem matches_rhyme_body_iff {L s : List Char} :
    Matches (.cat (.star .any) (litCat L)) s ↔ ∃ p, s = p ++ L ∧ '\n' ∉ p := by
  rw [matches_cat_iff]
  constructor
  · intro ⟨s1, s2, hs, h1, h2⟩
    exact ⟨s1, by rw [hs, matches_litCat_iff.mp h2], matches_star_any_iff.mp h1⟩
  · intro ⟨p, hs, hp⟩
    exact ⟨p, L, hs, matches_star_any_iff.mpr hp, matches_litCat_iff.mpr rfl⟩

/-- Anchored matching of the rhyme pattern on a newline-free subject is
exactly the suffix test. -/
theorem matchAnchored_rhyme_iff {L s : List Char} (hsnl : '\n' ∉ s) :
    matchAnchored (.cat (.star .any) (litCat L)) s = true ↔ List.IsSuffix L s := by
  unfold matchAnchored
  have hmain : reMatches (.cat (.star .any) (litCat L)) s = true ↔ List.IsSuffix L s := by
    rw [reMatches_iff, matches_rhyme_body_iff]
    constructor
    · intro ⟨p, hs, _⟩
      exact ⟨p, hs.symm⟩
    · intro ⟨p, hs⟩
      refine ⟨p, hs.symm, fun hmem => hsnl ?_⟩
      rw [← hs]
      exact List.mem_append_left L hmem
  cases hgl : s.getLast? with
  | none =>
    simp only [Bool.or_false]
    exact hmain
  | some c =>
    have hcs : c ∈ s := List.mem_of_mem_getLast? hgl
    have hc : (c == '\n') = false := by
      apply beq_eq_false_iff_ne.mpr
      intro hcc
      exact hsnl (hcc ▸ hcs)
    simp only [hc, Bool.false_and, Bool.or_false]
    exact hmain

/-! ## Parsing the generated rhyme patterns -/

/-- A non-metacharacter differs from each metacharacter. -/
theorem not_meta_facts {c : Char} (h : isMeta c = false) :
    c ≠ '.' ∧ c ≠ '*' ∧ c ≠ '(' ∧ c ≠ ')' ∧ c ≠ '|' ∧ c ≠ '$' := by
  simp only [isMeta, Bool.or_eq_false_iff, decide_eq_false_iff_not] at h
  exact ⟨h.1.1.1.1.1.1.1.1.1.1.1.1.1, h.1.1.1.1.1.1.1.1.1.1.1.1.2,
    h.1.1.1.1.1.1.1.1.1.1.1.2, h.1.1.1.1.1.1.1.1.1.1.2,
    h.1.1.1.1.1.1.1.1.1.2, h.1.1.1.1.1.1.1.1.2⟩

/-- Reading one literal atom. -/
theorem parseLv_atom_lit {c : Char} {rest : List Char} (hc : isMeta c = false) (f : Nat) :
    parseLv (f + 1) PLv.atom (c :: rest) = some (.char c, rest) := by
  obtain ⟨hdot, _, hopen, _, _, _⟩ := not_meta_facts hc
  rw [parseLv.eq_def]
  simp only [if_neg hdot, if_neg hopen, hc, Bool.false_eq_true, if_false]

/-- Reading the `.` atom. -/
theorem parseLv_atom_dot {rest : List Char} (f : Nat) :
    parseLv (f + 1) PLv.atom ('.' :: rest) = some (.any, rest) := by
  rw [parseLv.eq_def]
  simp

/-- Reading the starred factor `.*`. -/
theorem parseLv_factor_dotstar {rest : List Char} (f : Nat) :
    parseLv ((f + 1) + 1) PLv.factor ('.' :: '*' :: rest) = some (.star .any, rest) := by
  rw [parseLv.eq_def]
  simp [parseLv_atom_dot]

/-- Reading a literal factor (next character, when present, is again a
literal, so no `*` follows). -/
theorem parseLv_factor_lit {c : Char} {rest : List Char} (hc : isMeta c = false)
    (hrest : rest = [] ∨ ∃ d t, rest = d :: t ∧ isMeta d = false) (f : Nat) :
    parseLv ((f + 1) + 1) PLv.factor (c :: rest) = some (.char c, rest) := by
  rw [parseLv.eq_def]
  rcases hrest with rfl | ⟨d, t, rfl, hd⟩
  · simp [parseLv_atom_lit hc]
  · have hdstar : d ≠ '*' := (not_meta_facts hd).2.1
    simp [parseLv_atom_lit hc, hdstar]

/-- Reading a nonempty run of literal characters at concatenation
level consumes the whole run. -/
theorem parseLv_cat_lits :
    ∀ (L : List Char), (∀ c ∈ L, isMeta c = false) → L ≠ [] →
      ∀ f, L.length + 2 ≤ f → parseLv f PLv.cat L = some (litCat L, []) := by
  intro L
  induction L with
  | nil =>
    intro _ hne
    exact absurd rfl hne
  | cons c L ih =>
    intro hmeta _ f hf
    simp only [List.length_cons] at hf
    obtain ⟨f2, rfl⟩ : ∃ f2, f = (f2 + 1) + 1 + 1 := ⟨f - 3, by omega⟩
    have hc : isMeta c = false := hmeta c (List.mem_cons_self c L)
    have hrest : L = [] ∨ ∃ d t, L = d :: t ∧ isMeta d = false := by
      cases L with
      | nil => exact Or.inl rfl
      | cons d t =>
        exact Or.inr ⟨d, t, rfl, hmeta d (List.mem_cons_of_mem c (List.mem_cons_self d t))⟩
    rw [parseLv.eq_def]
    cases L with
    | nil => simp [parseLv_factor_lit hc hrest, litCat]
    | cons d L2 =>
      have hd : isMeta d = false := hmeta d (List.mem_cons_of_mem c (List.mem_cons_self d L2))
      obtain ⟨_, _, _, hdclose, hdbar, _⟩ := not_meta_facts hd
      have hrec : parseLv ((f2 + 1) + 1) PLv.cat (d :: L2) = some (litCat (d :: L2), []) := by
        apply ih (fun x hx => hmeta x (List.mem_cons_of_mem c hx)) (by simp) _ ?_
        simp only [List.length_cons] at hf ⊢
        omega
      simp [parseLv_factor_lit hc hrest, hdclose, hdbar, hrec, litCat]

/-- Reading the whole rhyme pattern body at concatenation level. -/
theorem parseLv_cat_dotstar {L : List Char}
    (hmeta : ∀ c ∈ L, isMeta c = false) (hne : L ≠ []) (f : Nat)
    (hf : L.length + 2 ≤ (f + 1) + 1) :
    parseLv (((f + 1) + 1) + 1) PLv.cat ('.' :: '*' :: L)
      = some (.cat (.star .any) (litCat L), []) := by
  rw [parseLv.eq_def]
  cases L with
  | nil => exact absurd rfl hne
  | cons d L2 =>
    have hd : isMeta d = false := hmeta d (List.mem_cons_self d L2)
    obtain ⟨_, _, _, hdclose, hdbar, _⟩ := not_meta_facts hd
    have hrec : parseLv ((f + 1) + 1) PLv.cat (d :: L2) = some (litCat (d :: L2), []) :=
      parseLv_cat_lits (d :: L2) hmeta (by simp) _ hf
    simp [parseLv_factor_dotstar, hdclose, hdbar, hrec]

/-- Compiling the full generated rhyme pattern `.*<literal suffix>`
(the trailing `$` is handled by the matcher) yields the expected
expression. -/
theorem compileRegex_rhyme {L : List Char}
    (hmeta : ∀ c ∈ L, isMeta c = false) (hne : L ≠ []) :
    compileRegex ('.' :: '*' :: L) = some (.cat (.star .any) (litCat L)) := by
  unfold compileRegex
  have hlen : ('.' :: '*' :: L).length = L.length + 2 := by simp
  rw [hlen]
  have hF : 4 * (L.length + 2) + 8 = ((((4 * L.length + 12) + 1) + 1) + 1) + 1 := by omega
  rw [hF]
  have hcat := parseLv_cat_dotstar hmeta hne (4 * L.length + 12) (by omega)
  rw [parseLv.eq_def]
  simp [hcat]

/-! ## Preprocessing the generated rhyme pattern text -/

/-- Every table symbol is already sanitized. -/
theorem table_sanitize_fix : ∀ m ∈ PHONEME_TABLE, sanitizePhonemeString m = m := by
  decide

/-- Every table symbol is a nonempty run of plain letters. -/
theorem table_alpha : ∀ m ∈ PHONEME_TABLE, m.data ≠ [] ∧ ∀ c ∈ m.data, isAlphaAZ c = true := by
  decide

/-- Letters are not wildcard markers. -/
theorem alpha_ne_special {c : Char} (h : isAlphaAZ c = true) :
    c ≠ '%' ∧ c ≠ '#' ∧ c ≠ '@' := by
  refine ⟨?_, ?_, ?_⟩ <;> intro heq <;> subst heq <;> exact absurd h (by decide)

/-- Tokenizer step: in a letters token, a letter is accumulated. -/
theorem pSplitGo_false_alpha {c : Char} (ha : isAlphaAZ c = true) (cs acc : List Char) :
    pSplitGo (c :: cs) acc false = pSplitGo cs (c :: acc) false := by
  obtain ⟨h1, h2, h3⟩ := alpha_ne_special ha
  rw [pSplitGo.eq_def]
  simp [h1, h2, h3, ha]

/-- Tokenizer step: in a separator run, a letter closes the run. -/
theorem pSplitGo_true_alpha {c : Char} (ha : isAlphaAZ c = true) (cs acc : List Char) :
    pSplitGo (c :: cs) acc true = acc.reverse :: pSplitGo cs [c] false := by
  obtain ⟨h1, h2, h3⟩ := alpha_ne_special ha
  rw [pSplitGo.eq_def]
  simp [h1, h2, h3, ha]

/-- Tokenizer step: an other-character after a letters token emits the
token and opens a separator run. -/
theorem pSplitGo_false_other {c : Char}
    (hs : (c = '%' ∨ c = '#' ∨ c = '@') → False) (ha : isAlphaAZ c = false)
    (cs acc : List Char) :
    pSplitGo (c :: cs) acc false = acc.reverse :: pSplitGo cs [c] true := by
  have h1 : c ≠ '%' := fun h => hs (Or.inl h)
  have h2 : c ≠ '#' := fun h => hs (Or.inr (Or.inl h))
  have h3 : c ≠ '@' := fun h => hs (Or.inr (Or.inr h))
  rw [pSplitGo.eq_def]
  simp [h1, h2, h3, ha]

/-- Tokenizer step: an other-character extends a separator run. -/
theorem pSplitGo_true_other {c : Char}
    (hs : (c = '%' ∨ c = '#' ∨ c = '@') → False) (ha : isAlphaAZ c = false)
    (cs acc : List Char) :
    pSplitGo (c :: cs) acc true = pSplitGo cs (c :: acc) true := by
  have h1 : c ≠ '%' := fun h => hs (Or.inl h)
  have h2 : c ≠ '#' := fun h => hs (Or.inr (Or.inl h))
  have h3 : c ≠ '@' := fun h => hs (Or.inr (Or.inr h))
  rw [pSplitGo.eq_def]
  simp [h1, h2, h3, ha]

/-- The tokenizer accumulates a run of letters. -/
theorem pSplitGo_letters : ∀ (m : List Char), (∀ c ∈ m, isAlphaAZ c = true) →
    ∀ rest acc, pSplitGo (m ++ rest) acc false = pSplitGo rest (m.reverse ++ acc) false := by
  intro m
  induction m with
  | nil => intro _ rest acc; simp
  | cons c m ih =>
    intro halpha rest acc
    have hc := halpha c (List.mem_cons_self c m)
    rw [List.cons_append, pSplitGo_false_alpha hc]
    rw [ih (fun x hx => halpha x (List.mem_cons_of_mem c hx)) rest (c :: acc)]
    simp

/-- A space-joined table symbol sequence starts with a letter. -/
theorem joinSpace_table_head (m : String) (ms : List String) (hm : m ∈ PHONEME_TABLE) :
    ∃ c cs, joinSpace (m :: ms) = c :: cs ∧ isAlphaAZ c = true := by
  obtain ⟨hne, halpha⟩ := table_alpha m hm
  cases hd : m.data with
  | nil => exact absurd hd hne
  | cons c cr =>
    have hc : isAlphaAZ c = true := halpha c (by rw [hd]; exact List.mem_cons_self c cr)
    cases ms with
    | nil => exact ⟨c, cr, by simp [joinSpace, hd], hc⟩
    | cons n ns =>
      exact ⟨c, cr ++ ' ' :: joinSpace (n :: ns), by simp [joinSpace, hd], hc⟩

/-- The tokenizer output on a space-joined table symbol sequence. -/
theorem pSplitGo_joinSpace : ∀ (ms : List String) (m : String) (acc : List Char),
    (∀ x ∈ m :: ms, x ∈ PHONEME_TABLE) →
    pSplitGo (joinSpace (m :: ms)) acc false = (acc.reverse ++ m.data) :: sepToks ms := by
  intro ms
  induction ms with
  | nil =>
    intro m acc hall
    obtain ⟨hne, halpha⟩ := table_alpha m (hall m (List.mem_cons_self m []))
    have hjs : joinSpace [m] = m.data := rfl
    rw [hjs]
    calc pSplitGo m.data acc false
        = pSplitGo (m.data ++ []) acc false := by rw [List.append_nil]
      _ = pSplitGo [] (m.data.reverse ++ acc) false := pSplitGo_letters m.data halpha [] acc
      _ = [(m.data.reverse ++ acc).reverse] := rfl
      _ = (acc.reverse ++ m.data) :: sepToks [] := by simp [sepToks]
  | cons m2 ms2 ih =>
    intro m acc hall
    obtain ⟨hne, halpha⟩ := table_alpha m (hall m (List.mem_cons_self m (m2 :: ms2)))
    have hm2 : m2 ∈ PHONEME_TABLE := hall m2 (by simp)
    have hjs : joinSpace (m :: m2 :: ms2) = m.data ++ ' ' :: joinSpace (m2 :: ms2) := rfl
    rw [hjs, pSplitGo_letters m.data halpha]
    rw [pSplitGo_false_other (by decide) (by decide)]
    obtain ⟨c, cs, hj, hc⟩ := joinSpace_table_head m2 ms2 hm2
    have hih := ih m2 [] (fun x hx => hall x (List.mem_cons_of_mem m hx))
    rw [hj, pSplitGo_false_alpha hc] at hih
    rw [hj, pSplitGo_true_alpha hc, hih]
    simp [sepToks]

/-- The tokenizer output on the whole generated rhyme pattern text. -/
theorem pSplit_rhyme (ms : List String) (m : String)
    (hall : ∀ x ∈ m :: ms, x ∈ PHONEME_TABLE) :
    pSplit ('.' :: '*' :: ' ' :: joinSpace (m :: ms))
      = [] :: ['.', '*', ' '] :: m.data :: sepToks ms := by
  unfold pSplit
  rw [pSplitGo_false_other (by decide) (by decide)]
  rw [pSplitGo_true_other (by decide) (by decide)]
  rw [pSplitGo_true_other (by decide) (by decide)]
  obtain ⟨c, cs, hj, hc⟩ := joinSpace_table_head m ms (hall m (List.mem_cons_self m ms))
  have hih := pSplitGo_joinSpace ms m [] hall
  rw [hj, pSplitGo_false_alpha hc] at hih
  rw [hj, pSplitGo_true_alpha hc, hih]
  simp

/-- The `.* ` separator token passes through with its space removed. -/
theorem processToken_sep : processToken ['.', '*', ' '] = ['.', '*'] := by decide

/-- The empty token stays empty. -/
theorem processToken_nil : processToken [] = [] := by decide

/-- A bare space separator token vanishes. -/
theorem processToken_space : processToken [' '] = [] := by decide

/-- A table symbol token is replaced by its single code unit. -/
theorem processToken_table {m : String} (hm : m ∈ PHONEME_TABLE) {c : Char}
    (hc : encodePhonemeString m = some c) : processToken m.data = [c] := by
  have halpha := (table_alpha m hm).2
  have h1 : m.data ≠ ['#'] := by
    intro he
    have := halpha '#' (by rw [he]; exact List.mem_cons_self _ _)
    exact absurd this (by decide)
  have h2 : m.data ≠ ['@'] := by
    intro he
    have := halpha '@' (by rw [he]; exact List.mem_cons_self _ _)
    exact absurd this (by decide)
  have h3 : m.data ≠ ['%'] := by
    intro he
    have := halpha '%' (by rw [he]; exact List.mem_cons_self _ _)
    exact absurd this (by decide)
  unfold processToken
  rw [if_neg h1, if_neg h2, if_neg h3]
  have hmk : String.mk m.data = m := rfl
  rw [hmk, hc]

/-- Flattening the processed separator tokens reproduces the encoded
suffix tail. -/
theorem sepToks_flatten : ∀ (ms : List String) (cs : List Char),
    (∀ x ∈ ms, x ∈ PHONEME_TABLE) → mapOpt encodePhonemeString ms = some cs →
    ((sepToks ms).map processToken).flatten = cs := by
  intro ms
  induction ms with
  | nil =>
    intro cs _ henc
    cases henc
    rfl
  | cons m ms ih =>
    intro cs hall henc
    unfold mapOpt at henc
    cases he : encodePhonemeString m with
    | none => rw [he] at henc; cases henc
    | some c =>
      rw [he] at henc
      cases hr : mapOpt encodePhonemeString ms with
      | none => rw [hr] at henc; cases henc
      | some cs2 =>
        rw [hr] at henc
        cases henc
        simp only [sepToks, List.map_cons, List.flatten_cons, processToken_space,
          processToken_table (hall m (List.mem_cons_self m ms)) he,
          List.nil_append, List.singleton_append]
        rw [ih cs2 (fun x hx => hall x (List.mem_cons_of_mem m hx)) hr]

/-- Preprocessing the generated rhyme pattern text yields `.*` followed
by the encoded suffix. -/
theorem preprocess_rhyme (ms : List String) (m : String) (L : List Char)
    (hall : ∀ x ∈ m :: ms, x ∈ PHONEME_TABLE)
    (henc : mapOpt encodePhonemeString (m :: ms) = some L) :
    preprocessPhoneticRegex ('.' :: '*' :: ' ' :: joinSpace (m :: ms)) = '.' :: '*' :: L := by
  unfold preprocessPhoneticRegex
  rw [pSplit_rhyme ms m hall]
  unfold mapOpt at henc
  cases he : encodePhonemeString m with
  | none => rw [he] at henc; cases henc
  | some c =>
    rw [he] at henc
    cases hr : mapOpt encodePhonemeString ms with
    | none => rw [hr] at henc; cases henc
    | some cs2 =>
      rw [hr] at henc
      cases henc
      simp only [List.map_cons, List.flatten_cons, processToken_nil, processToken_sep,
        processToken_table (hall m (List.mem_cons_self m ms)) he,
        List.nil_append, List.singleton_append]
      rw [sepToks_flatten ms cs2 (fun x hx => hall x (List.mem_cons_of_mem m hx)) hr]
      rfl

/-! ## regexSearch on generated rhyme patterns -/

/-- Reserved-range code units are not metacharacters. -/
theorem isMeta_false_of_reserved {c : Char} (h : 128 ≤ c.toNat) : isMeta c = false := by
  apply Bool.eq_false_iff.mpr
  intro hm
  simp only [isMeta, Bool.or_eq_true, decide_eq_true_eq] at hm
  rcases hm with ((((((((((((h1 | h1) | h1) | h1) | h1) | h1) | h1) | h1) | h1) | h1) | h1) | h1) | h1) | h1 <;>
    subst h1 <;> exact absurd h (by decide)

/-- Reserved-range code units are not the newline character. -/
theorem ne_newline_of_reserved {c : Char} (h : 128 ≤ c.toNat) : c ≠ '\n' := by
  intro he
  subst he
  exact absurd h (by decide)

/-- Encoding a list of table symbols succeeds, unit for unit, into the
reserved range. -/
theorem mapOpt_encode_total : ∀ (p : List String), (∀ s ∈ p, s ∈ PHONEME_TABLE) →
    ∃ L, mapOpt encodePhonemeString p = some L ∧ L.length = p.length ∧
      ∀ c ∈ L, 128 ≤ c.toNat ∧ c.toNat < 128 + PHONEME_TABLE.length := by
  intro p
  induction p with
  | nil => intro _; exact ⟨[], rfl, rfl, by intro c hc; cases hc⟩
  | cons s p ih =>
    intro hall
    obtain ⟨c, hc, _, hlo, hhi⟩ := encode_total_range s (hall s (List.mem_cons_self s p))
    obtain ⟨L, hL, hlen, hrange⟩ := ih (fun x hx => hall x (List.mem_cons_of_mem s hx))
    refine ⟨c :: L, ?_, by simp [hlen], ?_⟩
    · unfold mapOpt
      rw [hc, hL]
    · intro d hd
      rcases List.mem_cons.mp hd with rfl | hd2
      · exact ⟨hlo, hhi⟩
      · exact hrange d hd2

/-- Membership in `sorted(list(set(l)))` is membership in `l`. -/
theorem mem_sortedSet {x : String} {l : List String} : x ∈ sortedSet l ↔ x ∈ l := by
  unfold sortedSet
  rw [(pySorted_perm _).mem_iff]
  exact List.mem_dedup

/-- regexSearch on the generated rhyme pattern succeeds and returns
exactly the (sorted, deduplicated) words with an entry whose encoded
pronunciation ends with the encoded suffix. -/
theorem regexSearch_rhyme (es : List (String × List Char)) (suffix : List String)
    (m : String) (ms : List String) (hsfx : suffix = m :: ms)
    (htab : ∀ x ∈ suffix, x ∈ PHONEME_TABLE) (hwf : wfEntries es) :
    ∃ L, mapOpt encodePhonemeString suffix = some L ∧
      ∃ l, regexSearch es ('.' :: '*' :: ' ' :: joinSpace suffix) = some l ∧
        ∀ x, x ∈ l ↔ ∃ e ∈ es, e.1 = x ∧ List.IsSuffix L e.2 := by
  subst hsfx
  obtain ⟨L, hL, hlen, hrange⟩ := mapOpt_encode_total (m :: ms) htab
  have hLne : L ≠ [] := by
    intro he
    rw [he] at hlen
    exact absurd hlen.symm (by simp)
  refine ⟨L, hL, ?_⟩
  have hmeta : ∀ c ∈ L, isMeta c = false :=
    fun c hc => isMeta_false_of_reserved (hrange c hc).1
  unfold regexSearch
  rw [preprocess_rhyme ms m L htab hL, compileRegex_rhyme hmeta hLne]
  refine ⟨_, rfl, ?_⟩
  intro x
  rw [mem_sortedSet, List.mem_map]
  constructor
  · intro ⟨e, hmem, hx⟩
    have hfil := List.mem_filter.mp hmem
    refine ⟨e, hfil.1, hx, ?_⟩
    have hnl : '\n' ∉ e.2 := by
      intro hnlmem
      exact absurd rfl (ne_newline_of_reserved (hwf e hfil.1 '\n' hnlmem).1)
    exact (matchAnchored_rhyme_iff hnl).mp hfil.2
  · intro ⟨e, hmem, hx, hsuf⟩
    refine ⟨e, List.mem_filter.mpr ⟨hmem, ?_⟩, hx⟩
    have hnl : '\n' ∉ e.2 := by
      intro hnlmem
      exact absurd rfl (ne_newline_of_reserved (hwf e hmem '\n' hnlmem).1)
    exact (matchAnchored_rhyme_iff hnl).mpr hsuf

/-! ## The rhyme search characterization -/

/-- Pointwise witnesses on the right of a `Forall₂`. -/
theorem forall₂_mem_right {R : α → β → Prop} {l1 : List α} {l2 : List β}
    (h : List.Forall₂ R l1 l2) {y : β} (hy : y ∈ l2) : ∃ x ∈ l1, R x y := by
  induction h with
  | nil => cases hy
  | cons hR hrest ih =>
    rcases List.mem_cons.mp hy with rfl | hy2
    · exact ⟨_, List.mem_cons_self _ _, hR⟩
    · obtain ⟨x, hx, hxy⟩ := ih hy2
      exact ⟨x, List.mem_cons_of_mem _ hx, hxy⟩

/-- Pointwise witnesses on the left of a `Forall₂`. -/
theorem forall₂_mem_left {R : α → β → Prop} {l1 : List α} {l2 : List β}
    (h : List.Forall₂ R l1 l2) {x : α} (hx : x ∈ l1) : ∃ y ∈ l2, R x y := by
  induction h with
  | nil => cases hx
  | cons hR hrest ih =>
    rcases List.mem_cons.mp hx with rfl | hx2
    · exact ⟨_, List.mem_cons_self _ _, hR⟩
    · obtain ⟨y, hy, hxy⟩ := ih hx2
      exact ⟨y, List.mem_cons_of_mem _ hy, hxy⟩

/-- Decoded code units are table symbols. -/
theorem decodePhonemeByte_mem {c : Char} {s : String}
    (h : decodePhonemeByte c = some s) : s ∈ PHONEME_TABLE := by
  unfold decodePhonemeByte at h
  dsimp only at h
  split at h
  · rename_i hcond
    have hs := Option.some.inj h
    have hlt : (pyWrapIndex ((c.toNat : Int) - 128) (PHONEME_TABLE.length : Int)).toNat
        < PHONEME_TABLE.length := by omega
    have hmem := List.get_mem PHONEME_TABLE
      (pyWrapIndex ((c.toNat : Int) - 128) (PHONEME_TABLE.length : Int)).toNat hlt
    exact ((table_sanitize_fix _ hmem).symm.trans hs) ▸ hmem
  · cases h

/-- Every symbol of every pronunciation findPronunciations returns is a
table symbol. -/
theorem findPronunciations_table {es : List (String × List Char)} {w : String}
    {ps : List (List String)} (h : findPronunciations es w = some ps) :
    ∀ p ∈ ps, ∀ s ∈ p, s ∈ PHONEME_TABLE := by
  unfold findPronunciations at h
  intro p hp s hs
  obtain ⟨enc, _, hdec⟩ := forall₂_mem_right (mapOpt_eq_some_iff.mp h) hp
  unfold decodePronunciation at hdec
  obtain ⟨c, _, hc⟩ := forall₂_mem_right (mapOpt_eq_some_iff.mp hdec) hs
  exact decodePhonemeByte_mem hc

/-- C1 amended: on a wellformed dictionary, a successful rhyme search
returns exactly the words, other than the normalized query word itself,
having an entry whose encoded pronunciation ends with the encoding of
the first-vowel-to-end suffix of some pronunciation of the query
word. -/
theorem claim_C1_amended (es : List (String × List Char)) (w : String) (l : List String)
    (hwf : wfEntries es) (h : getRhymes es w = some l) :
    ∃ ps, findPronunciations es w = some ps ∧
      ∀ x, x ∈ l ↔ (x ≠ sanitizeWord w ∧ ∃ p ∈ ps, ∃ i,
        List.findIdx? (fun s => isVowelSound s) p = some i ∧
        ∃ L, mapOpt encodePhonemeString (p.drop i) = some L ∧
          ∃ e ∈ es, e.1 = x ∧ List.IsSuffix L e.2) := by
  cases hfind : findPronunciations es w with
  | none =>
    unfold getRhymes at h
    rw [hfind] at h
    cases h
  | some ps =>
    refine ⟨ps, rfl, ?_⟩
    have htab := findPronunciations_table hfind
    simp only [getRhymes, hfind] at h
    split at h
    · cases h
    · rename_i results hmap
      cases h
      intro x
      rw [(pySorted_perm _).mem_iff, List.mem_filter, List.mem_dedup, List.mem_flatten]
      simp only [decide_eq_true_eq]
      constructor
      · intro ⟨⟨res, hres, hxres⟩, hxneq⟩
        refine ⟨hxneq, ?_⟩
        obtain ⟨p, hp, hFp⟩ := forall₂_mem_right (mapOpt_eq_some_iff.mp hmap) hres
        split at hFp
        · cases hFp
        · rename_i i hidx
          obtain ⟨hilt, _, _⟩ := List.findIdx?_eq_some_iff_getElem.mp hidx
          have hdropc := List.drop_eq_getElem_cons hilt
          have htabp : ∀ y ∈ p.drop i, y ∈ PHONEME_TABLE :=
            fun y hy => htab p hp y (List.mem_of_mem_drop hy)
          obtain ⟨L, hL, l2, hreg, hchar⟩ :=
            regexSearch_rhyme es (p.drop i) (p[i]) (p.drop (i + 1)) hdropc htabp hwf
          rw [hreg] at hFp
          cases hFp
          obtain ⟨e, hmem, hx1, hx2⟩ := hchar x |>.mp hxres
          exact ⟨p, hp, i, hidx, L, hL, e, hmem, hx1, hx2⟩
      · intro ⟨hxneq, p, hp, i, hidx, L, hL, e, hmem, hx1, hx2⟩
        refine ⟨?_, hxneq⟩
        obtain ⟨res, hres, hFp⟩ := forall₂_mem_left (mapOpt_eq_some_iff.mp hmap) hp
        split at hFp
        · cases hFp
        · rename_i i2 hidx2
          rw [hidx] at hidx2
          cases hidx2
          obtain ⟨hilt, _, _⟩ := List.findIdx?_eq_some_iff_getElem.mp hidx
          have hdropc := List.drop_eq_getElem_cons hilt
          have htabp : ∀ y ∈ p.drop i, y ∈ PHONEME_TABLE :=
            fun y hy => htab p hp y (List.mem_of_mem_drop hy)
          obtain ⟨L2, hL2, l2, hreg, hchar⟩ :=
            regexSearch_rhyme es (p.drop i) (p[i]) (p.drop (i + 1)) hdropc htabp hwf
          rw [hreg] at hFp
          cases hFp
          rw [hL] at hL2
          cases hL2
          exact ⟨res, hres, (hchar x).mpr ⟨e, hmem, hx1, hx2⟩⟩

/-- C1 as stated fails on the code: on the example dictionary, "Cat" is
a dictionary word with a pronunciation whose encoded form ends with the
encoded first-vowel suffix of the query word "CAT", yet rhyme search
for "CAT" does not return it — the query word itself is excluded. -/
theorem claim_C1_counterexample :
    iter__text exampleLines = some exampleEntries ∧
    getRhymes exampleEntries "CAT" = some ["Bat", "Hat"] ∧
    findPronunciations exampleEntries "CAT" = some [["K", "AE", "T"]] ∧
    List.findIdx? (fun s => isVowelSound s) ["K", "AE", "T"] = some 1 ∧
    mapOpt encodePhonemeString (["K", "AE", "T"].drop 1)
      = some [Char.ofNat 129, Char.ofNat 158] ∧
    ("Cat", [Char.ofNat 147, Char.ofNat 129, Char.ofNat 158]) ∈ exampleEntries ∧
    List.IsSuffix [Char.ofNat 129, Char.ofNat 158]
      [Char.ofNat 147, Char.ofNat 129, Char.ofNat 158] ∧
    "Cat" ∉ ["Bat", "Hat"] := by
  decide

/-- Witness for the amended C1 on the example dictionary. -/
theorem claim_C1_amended_witness :
    ∃ ps, findPronunciations exampleEntries "CAT" = some ps ∧
      ∀ x, x ∈ ["Bat", "Hat"] ↔ (x ≠ sanitizeWord "CAT" ∧ ∃ p ∈ ps, ∃ i,
        List.findIdx? (fun s => isVowelSound s) p = some i ∧
        ∃ L, mapOpt encodePhonemeString (p.drop i) = some L ∧
          ∃ e ∈ exampleEntries, e.1 = x ∧ List.IsSuffix L e.2) :=
  claim_C1_amended exampleEntries "CAT" ["Bat", "Hat"]
    (by unfold wfEntries; decide) (by decide)

end Sylvia
